import Mathlib

/-
Verification of the hypergraph causal-discovery core of CausalEarthNet
(src/hypergraph_discovery.py) against its natural-language specification.

Shallow embedding conventions:
- numpy float64 values are modelled as rational numbers (ℚ);
- a data matrix (`df[cols].values`) is modelled column-wise, as a list of
  columns, each column a list of samples;
- the external scikit-learn / numpy collaborators that the repository code
  calls (`mutual_info_regression`, `Ridge(...).fit(...).predict(...)`,
  `np.std`, and the train/test-split + scale + fit + r2 pipeline) are
  gathered into an explicit record of external operations `ExtOps`; the
  repository's own arithmetic and control flow is embedded concretely;
- the stream of draws of `np.random.permutation` is passed in explicitly
  (one list of permuted copies of Y per tested combination), making the
  ambient randomness an explicit input.
-/

namespace CausalEarthNet

/-- A matrix, stored column-wise: `df[cols].values` becomes `cols.map df`. -/
abbrev Mat := List (List ℚ)

/-- Configuration fields stored by `HypergraphCausalDiscovery.__init__`. -/
structure HGConfig where
  max_hyperedge_size : Nat
  significance_level : ℚ
  ridge_alpha : ℚ
  test_size : ℚ
  random_state : Int
  n_permutations : Nat
deriving DecidableEq

/-- External numeric collaborators called by the repository code.
`mutual_info_regression` takes the seed (`random_state=...`) and the X
matrix and the target vector; `ridge_predict_mat Z X` models
`Ridge(alpha=0.1).fit(Z, X).predict(Z)` and `ridge_predict_vec Z Y` models
`Ridge(alpha=0.1).fit(Z, Y).predict(Z)`; `np_std` models `np.std`;
`fit_and_score cfg X_pair X_hyper Y_norm` models lines 147-169 of
`hypergraph_discovery.py` (the `train_test_split`, `StandardScaler`,
`Ridge(alpha=self.ridge_alpha)` fits and the two `r2_score` calls),
returning the pair (r2_pair, r2_hyper). -/
structure ExtOps where
  mutual_info_regression : Int → Mat → List ℚ → List ℚ
  ridge_predict_mat : Mat → Mat → Mat
  ridge_predict_vec : Mat → List ℚ → List ℚ
  np_std : List ℚ → ℚ
  fit_and_score : HGConfig → Mat → Mat → List ℚ → ℚ × ℚ

/-- Mean clamped to zero on the empty list:
`np.mean(mi_values) if mi_values.size > 0 else 0.0`. -/
def npMeanOrZero (l : List ℚ) : ℚ :=
  if l = [] then 0 else l.sum / l.length

/-- Plain `np.mean` (no clamping; empty input never reaches it in the
claims below). -/
def npMeanQ (l : List ℚ) : ℚ := l.sum / l.length

/-- Population variance `np.mean((y - np.mean(y))**2)`; `np.std y` is its
square root, so `np.std y` vanishes exactly when `npVariance y` does. -/
def npVariance (y : List ℚ) : ℚ :=
  npMeanQ (y.map fun v => (v - npMeanQ y) ^ 2)

/-- Elementwise vector subtraction (numpy broadcasting on 1-D arrays). -/
def vecSub (a b : List ℚ) : List ℚ := List.zipWith (· - ·) a b

/-- Columnwise matrix subtraction (numpy elementwise subtraction). -/
def matSub (A B : Mat) : Mat := List.zipWith vecSub A B

/-- Embedding of `HypergraphCausalDiscovery.conditional_mutual_information`
(lines 36-60).  With no conditioning set (or an empty one) it averages the
external per-column mutual-information estimates, clamping to 0 when the
estimator returns no values; otherwise it residualizes X and Y on Z with
the external ridge predictor and averages the estimates on the residuals,
with the same clamp. -/
def conditional_mutual_information (ext : ExtOps) (cfg : HGConfig)
    (X : Mat) (Y : List ℚ) (Z : Option Mat) : ℚ :=
  match Z with
  | none => npMeanOrZero (ext.mutual_info_regression cfg.random_state X Y)
  | some z =>
    if z = [] then
      npMeanOrZero (ext.mutual_info_regression cfg.random_state X Y)
    else
      let residual_x := matSub X (ext.ridge_predict_mat z X)
      let residual_y := vecSub Y (ext.ridge_predict_vec z Y)
      npMeanOrZero (ext.mutual_info_regression cfg.random_state residual_x residual_y)

/-- Embedding of `HypergraphCausalDiscovery.test_independence`
(lines 62-75).  `perms` is the list of permuted copies of Y drawn by
`np.random.permutation`, one per loop iteration (so `perms.length` is the
configured `n_permutations`).  The p-value is
`np.mean(np.array(null_distribution) >= observed_cmi)`, i.e. the count of
null statistics that are at least the observed one, over the length. -/
def test_independence (ext : ExtOps) (cfg : HGConfig) (perms : List (List ℚ))
    (X : Mat) (Y : List ℚ) (Z : Option Mat) : Bool × ℚ × ℚ :=
  let observed_cmi := conditional_mutual_information ext cfg X Y Z
  let null_distribution :=
    perms.map fun Y_perm => conditional_mutual_information ext cfg X Y_perm Z
  let p_value : ℚ :=
    (null_distribution.countP fun v => decide (observed_cmi ≤ v)) /
      (null_distribution.length : ℚ)
  let is_independent := decide (cfg.significance_level < p_value)
  (is_independent, p_value, observed_cmi)

/-- Embedding of `itertools.combinations(pool, n)`: all subsequences of
length `n` of the pool, enumerated by position in the pool order. -/
def combinations {α : Type} : Nat → List α → List (List α)
  | 0, _ => [[]]
  | _ + 1, [] => []
  | n + 1, a :: l => (combinations n l).map (a :: ·) ++ combinations (n + 1) l

/-- A Hyperedge Record: the dict literal built at lines 105-106 of
`hypergraph_discovery.py`. -/
structure Hyperedge where
  sources : List String
  target : String
  cmi : ℚ
  p_value : ℚ
  order : Nat
deriving DecidableEq

/-- The accumulated hypergraph `self.hypergraph`, a dict with key
`nodes` holding a set of names and key `edges` holding a list of records;
`__init__` sets `nodes` to the empty set and `edges` to the empty list. -/
structure Hypergraph where
  nodes : Finset String
  edges : List Hyperedge
deriving DecidableEq

/-- One entry of the pairwise baseline index: a dict with the source
lagged-column name under key `source` and its p-value under key `cmi_p`. -/
structure PairLink where
  source : String
  cmi_p : ℚ
deriving DecidableEq

/-- The mutable attributes of a `HypergraphCausalDiscovery` instance that
the claimed operations read or write (`self.hypergraph` and
`self.pairwise_baseline`, the latter a Python dict modelled as an
insertion-ordered association list). -/
structure DiscoveryState where
  hypergraph : Hypergraph
  pairwise_baseline : List (String × List PairLink)
deriving DecidableEq

/-- Flattened enumeration of candidate driver combinations visited by the
nested loops of `discover_hypergraph`: sizes `range(2, max_hyperedge_size + 1)`,
and for each size every combination of the candidate columns. -/
def testedCombos (K : Nat) (cands : List String) : List (List String) :=
  (List.range' 2 (K - 1)).flatMap fun s => combinations s cands

/-- Embedding of `HypergraphCausalDiscovery.discover_hypergraph`
(lines 86-113).  `perms` supplies, for each tested combination, the list
of permuted copies of Y that `np.random.permutation` draws inside its
`test_independence` call.  Returns the updated hypergraph (the code
mutates `self.hypergraph['edges']` in place, and touches nothing else of
the instance) together with the list of newly created records. -/
def discover_hypergraph (ext : ExtOps) (cfg : HGConfig)
    (perms : List String → List (List ℚ)) (hg : Hypergraph)
    (df : String → List ℚ) (target_var_t : String)
    (all_drivers_lagged_cols : List String) (system_vars_t : List String) :
    Hypergraph × List Hyperedge :=
  let Y := df target_var_t
  let Z_cols := system_vars_t.filter fun v => decide (v ≠ target_var_t)
  let Z_data : Mat := Z_cols.map df
  let hyperedges :=
    (List.range' 2 (cfg.max_hyperedge_size - 1)).flatMap fun size =>
      (combinations size all_drivers_lagged_cols).filterMap fun source_set_cols =>
        let X_set : Mat := source_set_cols.map df
        let r := test_independence ext cfg (perms source_set_cols) X_set Y (some Z_data)
        if r.1 then none
        else some ⟨source_set_cols, target_var_t, r.2.2, r.2.1, size⟩
  ({ hg with edges := hg.edges ++ hyperedges }, hyperedges)

/-- Left fold behind Python `min(l, key=f)` run from the seed `a`: the
current best is replaced only when a strictly smaller key appears, so the
first minimum encountered is kept on ties. -/
def foldMin {α : Type} (f : α → ℚ) (a : α) (l : List α) : α :=
  l.foldl (fun b x => if f x < f b then x else b) a

/-- Left fold behind Python `max(l, key=f)` run from the seed `a`: the
current best is replaced only when a strictly larger key appears, so the
first maximum encountered is kept on ties. -/
def foldMax {α : Type} (f : α → ℚ) (a : α) (l : List α) : α :=
  l.foldl (fun b x => if f b < f x then x else b) a

/-- Python `min(l, key=f)` on a possibly empty list. -/
def pyMinBy {α : Type} (f : α → ℚ) : List α → Option α
  | [] => none
  | a :: l => some (foldMin f a l)

/-- Python `max(l, key=f)` on a possibly empty list. -/
def pyMaxBy {α : Type} (f : α → ℚ) : List α → Option α
  | [] => none
  | a :: l => some (foldMax f a l)

/-- The comprehension at line 129:
`[e for e in self.hypergraph['edges'] if e['target'] == target_var_t]`. -/
def relevantHyperedges (edges : List Hyperedge) (t : String) : List Hyperedge :=
  edges.filter fun e => decide (e.target = t)

/-- Lines 131-135: the hyperedge driver set defaults to the supplied
pairwise driver set and is replaced by the sources of the stored matching
record with the largest observed mutual-information statistic when at
least one matching record exists. -/
def bestHyperedgeDrivers (edges : List Hyperedge) (t : String)
    (fallback : List String) : List String :=
  match pyMaxBy Hyperedge.cmi (relevantHyperedges edges t) with
  | none => fallback
  | some best_edge => best_edge.sources

/-- The Comparison Report dict returned by
`compare_pairwise_vs_hypergraph`. -/
structure ComparisonReport where
  pairwise_r2 : ℚ
  hypergraph_r2 : ℚ
  best_pairwise_p : ℚ
deriving DecidableEq

/-- Main path of `compare_pairwise_vs_hypergraph` (lines 123-180), taken
when the baseline entry list for the target is the non-empty
`e0 :: rest`: select the baseline entry with smallest `cmi_p`, select the
matching hyperedge with largest `cmi` (defaulting to the pairwise driver
when none matches), standardize Y as `(Y - np.mean(Y)) / np.std(Y)` with
no guard on the standard deviation, and hand the driver matrices to the
external split/scale/fit/score pipeline. -/
def compareMain (ext : ExtOps) (cfg : HGConfig) (st : DiscoveryState)
    (df : String → List ℚ) (target_var_t : String)
    (e0 : PairLink) (rest : List PairLink) : ComparisonReport :=
  let best_link := foldMin PairLink.cmi_p e0 rest
  let best_pairwise_driver := [best_link.source]
  let best_pairwise_p := best_link.cmi_p
  let Y := df target_var_t
  let best_hyperedge_drivers :=
    bestHyperedgeDrivers st.hypergraph.edges target_var_t best_pairwise_driver
  let X_pair : Mat := best_pairwise_driver.map df
  let X_hyper : Mat := best_hyperedge_drivers.map df
  let Y_norm := Y.map fun v => (v - npMeanQ Y) / ext.np_std Y
  let scores := ext.fit_and_score cfg X_pair X_hyper Y_norm
  ⟨scores.1, scores.2, best_pairwise_p⟩

/-- Embedding of `HypergraphCausalDiscovery.compare_pairwise_vs_hypergraph`
(lines 115-180).  The guard at line 119
(`target not in self.pairwise_baseline or not self.pairwise_baseline[target]`)
short-circuits to the neutral report; the function reads the instance but
never writes it, so the hypergraph and the baseline index are unchanged by
construction. -/
def compare_pairwise_vs_hypergraph (ext : ExtOps) (cfg : HGConfig)
    (st : DiscoveryState) (df : String → List ℚ) (target_var_t : String) :
    ComparisonReport :=
  match st.pairwise_baseline.lookup target_var_t with
  | none => ⟨0, 0, 1⟩
  | some [] => ⟨0, 0, 1⟩
  | some (e0 :: rest) => compareMain ext cfg st df target_var_t e0 rest

/-- The observed statistic of one `test_independence` call. -/
def observedStat (ext : ExtOps) (cfg : HGConfig) (X : Mat) (Y : List ℚ)
    (Z : Option Mat) : ℚ :=
  conditional_mutual_information ext cfg X Y Z

/-- The null distribution built by one `test_independence` call. -/
def nullStats (ext : ExtOps) (cfg : HGConfig) (perms : List (List ℚ))
    (X : Mat) (Z : Option Mat) : List ℚ :=
  perms.map fun Y_perm => conditional_mutual_information ext cfg X Y_perm Z

/-- The p-value computed by one `test_independence` call. -/
def pValueOf (ext : ExtOps) (cfg : HGConfig) (perms : List (List ℚ))
    (X : Mat) (Y : List ℚ) (Z : Option Mat) : ℚ :=
  ((nullStats ext cfg perms X Z).countP
      fun v => decide (observedStat ext cfg X Y Z ≤ v)) /
    ((nullStats ext cfg perms X Z).length : ℚ)

lemma test_independence_eq (ext : ExtOps) (cfg : HGConfig)
    (perms : List (List ℚ)) (X : Mat) (Y : List ℚ) (Z : Option Mat) :
    test_independence ext cfg perms X Y Z =
      (decide (cfg.significance_level < pValueOf ext cfg perms X Y Z),
        pValueOf ext cfg perms X Y Z, observedStat ext cfg X Y Z) := rfl

/-- A sample external-operations record used to instantiate witnesses:
the estimator returns no values, the ridge predictor reproduces its
target, the standard deviation routine returns 0 and the scoring pipeline
returns a pair of zeros. -/
def extSample : ExtOps :=
  ⟨fun _ _ _ => [], fun _ X => X, fun _ y => y, fun _ => 0, fun _ _ _ _ => (0, 0)⟩

/-- A sample configuration (max hyperedge size 2, significance level 0.05,
one permutation). -/
def cfgSample : HGConfig := ⟨2, 1/20, 1, 3/10, 42, 1⟩

/-- C1.  For every X, Y, optional Z and every configured
`n_permutations ≥ 1`, `test_independence` returns a p-value equal to the
fraction of the `n_permutations` null-distribution statistics that are
greater than or equal to the observed statistic, that p-value lies in
[0,1], and `is_independent` is true exactly when the p-value is strictly
greater than the configured significance level. -/
theorem C1_permutation_pvalue (ext : ExtOps) (cfg : HGConfig)
    (perms : List (List ℚ)) (X : Mat) (Y : List ℚ) (Z : Option Mat)
    (hn : 1 ≤ cfg.n_permutations) (hp : perms.length = cfg.n_permutations) :
    (test_independence ext cfg perms X Y Z).2.1 =
      (((nullStats ext cfg perms X Z).countP
          fun v => decide (observedStat ext cfg X Y Z ≤ v) : ℚ) /
        (cfg.n_permutations : ℚ)) ∧
    0 ≤ (test_independence ext cfg perms X Y Z).2.1 ∧
    (test_independence ext cfg perms X Y Z).2.1 ≤ 1 ∧
    ((test_independence ext cfg perms X Y Z).1 = true ↔
      cfg.significance_level < (test_independence ext cfg perms X Y Z).2.1) := by
  have hlen : (nullStats ext cfg perms X Z).length = cfg.n_permutations := by
    rw [nullStats, List.length_map, hp]
  have hcnt : (nullStats ext cfg perms X Z).countP
      (fun v => decide (observedStat ext cfg X Y Z ≤ v)) ≤ cfg.n_permutations := by
    rw [← hlen]; exact List.countP_le_length _
  have hnpos : (0 : ℚ) < (cfg.n_permutations : ℚ) := by exact_mod_cast hn
  rw [test_independence_eq]
  refine ⟨?_, ?_, ?_, ?_⟩
  · rw [pValueOf, hlen]
  · exact div_nonneg (by positivity) (by positivity)
  · rw [pValueOf, hlen]
    exact (div_le_one hnpos).mpr (by exact_mod_cast hcnt)
  · exact decide_eq_true_iff

theorem C1_permutation_pvalue_witness :
    1 ≤ cfgSample.n_permutations ∧
    0 ≤ (test_independence extSample cfgSample [[0, 1]] [[1, 0]] [1, 0] none).2.1 ∧
    (test_independence extSample cfgSample [[0, 1]] [[1, 0]] [1, 0] none).2.1 ≤ 1 :=
  ⟨by decide,
    (C1_permutation_pvalue extSample cfgSample [[0, 1]] [[1, 0]] [1, 0] none
      (by decide) rfl).2.1,
    (C1_permutation_pvalue extSample cfgSample [[0, 1]] [[1, 0]] [1, 0] none
      (by decide) rfl).2.2.1⟩

lemma npMeanOrZero_nonneg {l : List ℚ} (h : ∀ v ∈ l, 0 ≤ v) :
    0 ≤ npMeanOrZero l := by
  unfold npMeanOrZero
  split
  · exact le_refl 0
  · exact div_nonneg (List.sum_nonneg h) (by positivity)

lemma npMeanOrZero_eq_zero {l : List ℚ} (h : ∀ v ∈ l, v = 0) :
    npMeanOrZero l = 0 := by
  unfold npMeanOrZero
  split
  · rfl
  · rw [List.sum_eq_zero h, zero_div]

lemma vecSub_self_zero {y : List ℚ} : ∀ v ∈ vecSub y y, v = 0 := by
  intro v hv
  rw [vecSub, List.zipWith_same] at hv
  obtain ⟨a, _, rfl⟩ := List.mem_map.mp hv
  exact sub_self a

lemma matSub_self_zero {X : Mat} : ∀ col ∈ matSub X X, ∀ v ∈ col, v = 0 := by
  intro col hcol
  rw [matSub, List.zipWith_same] at hcol
  obtain ⟨a, _, rfl⟩ := List.mem_map.mp hcol
  exact vecSub_self_zero

lemma cmi_none (ext : ExtOps) (cfg : HGConfig) (X : Mat) (Y : List ℚ) :
    conditional_mutual_information ext cfg X Y none =
      npMeanOrZero (ext.mutual_info_regression cfg.random_state X Y) := rfl

lemma cmi_some_nil (ext : ExtOps) (cfg : HGConfig) (X : Mat) (Y : List ℚ) :
    conditional_mutual_information ext cfg X Y (some []) =
      npMeanOrZero (ext.mutual_info_regression cfg.random_state X Y) := rfl

lemma cmi_some (ext : ExtOps) (cfg : HGConfig) (X : Mat) (Y : List ℚ)
    {z : Mat} (hz : z ≠ []) :
    conditional_mutual_information ext cfg X Y (some z) =
      npMeanOrZero (ext.mutual_info_regression cfg.random_state
        (matSub X (ext.ridge_predict_mat z X))
        (vecSub Y (ext.ridge_predict_vec z Y))) := by
  simp only [conditional_mutual_information]
  rw [if_neg hz]

/-- C6.  Under the documented contract of the external estimators (the
mutual-information estimates are non-negative; a constant target or
constant driver columns give all-zero estimates; the ridge predictor
reproduces a constant regressand exactly), `conditional_mutual_information`
always returns a value that is at least 0, returns exactly 0 whenever the
underlying estimator yields no values, and returns exactly 0 on
constant-valued Y or constant-valued X.  The embedded function is total,
so no input raises. -/
theorem C6_cmi_nonneg_clamped (ext : ExtOps) (cfg : HGConfig)
    (hnn : ∀ s X0 y0, ∀ v ∈ ext.mutual_info_regression s X0 y0, 0 ≤ v)
    (hconstY : ∀ s X0 y0 c, (∀ v ∈ y0, v = c) →
      ∀ v ∈ ext.mutual_info_regression s X0 y0, v = 0)
    (hconstX : ∀ s X0 y0, (∀ col ∈ X0, ∃ c, ∀ v ∈ col, v = c) →
      ∀ v ∈ ext.mutual_info_regression s X0 y0, v = 0)
    (hridgeY : ∀ Z0 y0 c, (∀ v ∈ y0, v = c) → ext.ridge_predict_vec Z0 y0 = y0)
    (hridgeX : ∀ Z0 X0, (∀ col ∈ X0, ∃ c, ∀ v ∈ col, v = c) →
      ext.ridge_predict_mat Z0 X0 = X0)
    (X : Mat) (Y : List ℚ) (Z : Option Mat) :
    0 ≤ conditional_mutual_information ext cfg X Y Z ∧
    ((∀ s X0 y0, ext.mutual_info_regression s X0 y0 = []) →
      conditional_mutual_information ext cfg X Y Z = 0) ∧
    (∀ c, (∀ v ∈ Y, v = c) → conditional_mutual_information ext cfg X Y Z = 0) ∧
    ((∀ col ∈ X, ∃ c, ∀ v ∈ col, v = c) →
      conditional_mutual_information ext cfg X Y Z = 0) := by
  have hdirect : ∀ h : conditional_mutual_information ext cfg X Y Z =
      npMeanOrZero (ext.mutual_info_regression cfg.random_state X Y),
      0 ≤ conditional_mutual_information ext cfg X Y Z ∧
      ((∀ s X0 y0, ext.mutual_info_regression s X0 y0 = []) →
        conditional_mutual_information ext cfg X Y Z = 0) ∧
      (∀ c, (∀ v ∈ Y, v = c) → conditional_mutual_information ext cfg X Y Z = 0) ∧
      ((∀ col ∈ X, ∃ c, ∀ v ∈ col, v = c) →
        conditional_mutual_information ext cfg X Y Z = 0) := by
    intro h
    rw [h]
    refine ⟨npMeanOrZero_nonneg (hnn _ _ _), ?_, ?_, ?_⟩
    · intro hemp; rw [hemp]; rfl
    · intro c hc; exact npMeanOrZero_eq_zero (hconstY _ _ _ c hc)
    · intro hX; exact npMeanOrZero_eq_zero (hconstX _ _ _ hX)
  match Z with
  | none => exact hdirect (cmi_none ext cfg X Y)
  | some z =>
    rcases eq_or_ne z [] with rfl | hz
    · exact hdirect (cmi_some_nil ext cfg X Y)
    · rw [cmi_some ext cfg X Y hz]
      refine ⟨npMeanOrZero_nonneg (hnn _ _ _), ?_, ?_, ?_⟩
      · intro hemp; rw [hemp]; rfl
      · intro c hc
        rw [hridgeY z Y c hc]
        exact npMeanOrZero_eq_zero (hconstY _ _ _ 0 vecSub_self_zero)
      · intro hX
        rw [hridgeX z X hX]
        refine npMeanOrZero_eq_zero (hconstX _ _ _ ?_)
        intro col hcol
        exact ⟨0, matSub_self_zero col hcol⟩

theorem C6_cmi_nonneg_clamped_witness :
    0 ≤ conditional_mutual_information extSample cfgSample [[1, 1]] [2, 2] (some [[3, 4]]) ∧
    conditional_mutual_information extSample cfgSample [[1, 1]] [2, 2] (some [[3, 4]]) = 0 := by
  have h := C6_cmi_nonneg_clamped extSample cfgSample
    (by intro s X0 y0 v hv; cases hv)
    (by intro s X0 y0 c _ v hv; cases hv)
    (by intro s X0 y0 _ v hv; cases hv)
    (by intro Z0 y0 c _; rfl)
    (by intro Z0 X0 _; rfl)
    [[1, 1]] [2, 2] (some [[3, 4]])
  exact ⟨h.1, h.2.2.1 2 (by decide)⟩

/-- C5.  When the target has no entry, or an empty entry list, in the
pairwise baseline index, `compare_pairwise_vs_hypergraph` short-circuits
to the neutral report (0, 0, 1) without consulting any of the external
model-fitting operations (the conclusion holds for every choice of
external operations), and — the embedded function being a pure reader of
the state — the hypergraph and baseline index are unchanged. -/
theorem C5_missing_baseline_short_circuit (cfg : HGConfig)
    (st : DiscoveryState) (df : String → List ℚ) (target_var_t : String)
    (h : st.pairwise_baseline.lookup target_var_t = none ∨
      st.pairwise_baseline.lookup target_var_t = some []) :
    ∀ ext : ExtOps,
      compare_pairwise_vs_hypergraph ext cfg st df target_var_t = ⟨0, 0, 1⟩ := by
  intro ext
  rcases h with h | h <;> simp [compare_pairwise_vs_hypergraph, h]

theorem C5_missing_baseline_short_circuit_witness :
    compare_pairwise_vs_hypergraph extSample cfgSample ⟨⟨∅, []⟩, []⟩
      (fun _ => [1]) "t" = ⟨0, 0, 1⟩ :=
  C5_missing_baseline_short_circuit cfgSample ⟨⟨∅, []⟩, []⟩ (fun _ => [1]) "t"
    (Or.inl rfl) extSample

/-- C9.  The comparison is deterministic: with the same configuration
(including the fixed random state threaded to the external pipeline), the
same observation table, target, baseline index and stored hyperedge list,
two calls return the same report — even when the two states differ in
parts the comparison does not read, such as the hypergraph node set. -/
theorem C9_compare_deterministic (ext : ExtOps) (cfg : HGConfig)
    (st1 st2 : DiscoveryState) (df : String → List ℚ) (target_var_t : String)
    (hb : st1.pairwise_baseline = st2.pairwise_baseline)
    (he : st1.hypergraph.edges = st2.hypergraph.edges) :
    compare_pairwise_vs_hypergraph ext cfg st1 df target_var_t =
      compare_pairwise_vs_hypergraph ext cfg st2 df target_var_t := by
  unfold compare_pairwise_vs_hypergraph compareMain
  rw [hb, he]

theorem C9_compare_deterministic_witness :
    compare_pairwise_vs_hypergraph extSample cfgSample
      ⟨⟨∅, []⟩, [("t", [⟨"a", 1⟩])]⟩ (fun _ => [1, 2]) "t" =
    compare_pairwise_vs_hypergraph extSample cfgSample
      ⟨⟨{"x"}, []⟩, [("t", [⟨"a", 1⟩])]⟩ (fun _ => [1, 2]) "t" :=
  C9_compare_deterministic extSample cfgSample
    ⟨⟨∅, []⟩, [("t", [⟨"a", 1⟩])]⟩ ⟨⟨{"x"}, []⟩, [("t", [⟨"a", 1⟩])]⟩
    (fun _ => [1, 2]) "t" rfl rfl

lemma length_combinations {α : Type} (n : Nat) (l : List α) :
    (combinations n l).length = l.length.choose n := by
  induction l generalizing n with
  | nil => cases n <;> simp [combinations]
  | cons a t ih =>
    cases n with
    | zero => simp [combinations]
    | succ m =>
      simp only [combinations, List.length_append, List.length_map, ih m,
        ih (m + 1), List.length_cons, Nat.choose_succ_succ]

lemma mem_combinations {α : Type} :
    ∀ (l : List α) (n : Nat) (c : List α),
      c ∈ combinations n l ↔ List.Sublist c l ∧ c.length = n := by
  intro l
  induction l with
  | nil =>
    intro n c
    cases n with
    | zero =>
      simp only [combinations, List.mem_singleton]
      constructor
      · rintro rfl; exact ⟨List.Sublist.refl [], rfl⟩
      · rintro ⟨hs, _⟩; exact List.sublist_nil.mp hs
    | succ m =>
      simp only [combinations, List.not_mem_nil, false_iff, not_and]
      intro hs
      rw [List.sublist_nil.mp hs]
      exact fun h => by simp at h
  | cons a t ih =>
    intro n c
    cases n with
    | zero =>
      simp only [combinations, List.mem_singleton]
      constructor
      · rintro rfl; exact ⟨List.nil_sublist _, rfl⟩
      · rintro ⟨_, hl⟩; exact List.length_eq_zero.mp hl
    | succ m =>
      simp only [combinations, List.mem_append, List.mem_map]
      constructor
      · rintro (⟨c1, hc1, rfl⟩ | h)
        · obtain ⟨hs, hl⟩ := (ih m c1).mp hc1
          exact ⟨List.cons_sublist_cons.mpr hs, by simp [hl]⟩
        · obtain ⟨hs, hl⟩ := (ih (m + 1) c).mp h
          exact ⟨List.sublist_cons_of_sublist a hs, hl⟩
      · rintro ⟨hs, hl⟩
        cases hs with
        | cons _ h => exact Or.inr ((ih (m + 1) c).mpr ⟨h, hl⟩)
        | cons₂ _ h =>
          exact Or.inl ⟨_, (ih m _).mpr ⟨h, by simpa using hl⟩, rfl⟩

lemma nodup_combinations {α : Type} :
    ∀ (l : List α), l.Nodup → ∀ n, (combinations n l).Nodup := by
  intro l
  induction l with
  | nil =>
    intro _ n
    cases n <;> simp [combinations]
  | cons a t ih =>
    intro hnd n
    obtain ⟨hat, hndt⟩ := List.nodup_cons.mp hnd
    cases n with
    | zero => simp [combinations]
    | succ m =>
      simp only [combinations]
      refine List.nodup_append.mpr ⟨?_, ih hndt (m + 1), ?_⟩
      · exact (ih hndt m).map fun c1 c2 h => by injection h
      · intro c hc1 hc2
        obtain ⟨c1, _, rfl⟩ := List.mem_map.mp hc1
        obtain ⟨hs, _⟩ := (mem_combinations t (m + 1) (a :: c1)).mp hc2
        exact hat (hs.subset (List.mem_cons_self a c1))

lemma sum_map_range' (g : Nat → Nat) (a : Nat) :
    ∀ n : Nat, ((List.range' a n).map g).sum = ∑ s ∈ Finset.Ico a (a + n), g s := by
  intro n
  induction n with
  | zero => simp
  | succ m ih =>
    rw [List.range'_concat, List.map_append, List.sum_append, ih]
    have h1 : a + 1 * m = a + m := by ring
    have h2 : a + (m + 1) = (a + m) + 1 := by ring
    rw [h1, h2, Finset.sum_Ico_succ_top (Nat.le_add_right a m)]
    simp

lemma ico_two_eq_icc (K : Nat) : Finset.Ico 2 (2 + (K - 1)) = Finset.Icc 2 K := by
  cases K with
  | zero => simp
  | succ k =>
    have : 2 + (k + 1 - 1) = (k + 1) + 1 := by omega
    rw [this, ← Nat.Ico_succ_right]

lemma length_testedCombos (K : Nat) (cands : List String) :
    (testedCombos K cands).length = ∑ s ∈ Finset.Icc 2 K, cands.length.choose s := by
  unfold testedCombos
  rw [List.length_flatMap]
  have h1 : List.map (List.length ∘ fun s => combinations s cands)
      (List.range' 2 (K - 1)) =
      (List.range' 2 (K - 1)).map fun s => cands.length.choose s :=
    List.map_congr_left fun s _ => length_combinations s cands
  rw [h1, sum_map_range', ico_two_eq_icc]

lemma mem_testedCombos {K : Nat} {cands : List String} {c : List String} :
    c ∈ testedCombos K cands ↔
      List.Sublist c cands ∧ 2 ≤ c.length ∧ c.length ≤ K := by
  unfold testedCombos
  rw [List.mem_flatMap]
  constructor
  · rintro ⟨s, hs, hc⟩
    rw [List.mem_range'_1] at hs
    obtain ⟨hsub, hlen⟩ := (mem_combinations cands s c).mp hc
    exact ⟨hsub, by omega, by omega⟩
  · rintro ⟨hsub, h2, hK⟩
    refine ⟨c.length, ?_, (mem_combinations cands c.length c).mpr ⟨hsub, rfl⟩⟩
    rw [List.mem_range'_1]
    omega

lemma nodup_testedCombos {K : Nat} {cands : List String} (h : cands.Nodup) :
    (testedCombos K cands).Nodup := by
  unfold testedCombos
  rw [List.nodup_flatMap]
  refine ⟨fun s _ => nodup_combinations cands h s, ?_⟩
  refine List.Pairwise.imp ?_ (List.nodup_range' 2 (K - 1))
  intro s t hst c hc1 hc2
  obtain ⟨_, hl1⟩ := (mem_combinations cands s c).mp hc1
  obtain ⟨_, hl2⟩ := (mem_combinations cands t c).mp hc2
  exact hst (hl1 ▸ hl2)

lemma flatMap_congr_mem {α β : Type} {l : List α} {f g : α → List β}
    (h : ∀ a ∈ l, f a = g a) : l.flatMap f = l.flatMap g := by
  induction l with
  | nil => rfl
  | cons a t ih =>
    rw [List.flatMap_cons, List.flatMap_cons, h a (List.mem_cons_self a t),
      ih fun x hx => h x (List.mem_cons_of_mem a hx)]

/-- The record-building step applied to one candidate combination inside
`discover_hypergraph`: the test runs against the fixed conditioning data
and the record is created exactly when the test does not declare
independence. -/
def discoveryStep (ext : ExtOps) (cfg : HGConfig)
    (perms : List String → List (List ℚ)) (df : String → List ℚ)
    (target_var_t : String) (system_vars_t : List String)
    (cols : List String) : Option Hyperedge :=
  let Z_data : Mat := (system_vars_t.filter fun v => decide (v ≠ target_var_t)).map df
  let r := test_independence ext cfg (perms cols) (cols.map df) (df target_var_t)
    (some Z_data)
  if r.1 then none
  else some ⟨cols, target_var_t, r.2.2, r.2.1, cols.length⟩

lemma discover_snd_eq (ext : ExtOps) (cfg : HGConfig)
    (perms : List String → List (List ℚ)) (hg : Hypergraph)
    (df : String → List ℚ) (target_var_t : String)
    (cands : List String) (system_vars_t : List String) :
    (discover_hypergraph ext cfg perms hg df target_var_t cands system_vars_t).2 =
      (testedCombos cfg.max_hyperedge_size cands).filterMap
        (discoveryStep ext cfg perms df target_var_t system_vars_t) := by
  unfold discover_hypergraph testedCombos
  rw [List.filterMap_flatMap]
  refine flatMap_congr_mem ?_
  intro s _
  refine List.filterMap_congr ?_
  intro cols hcols
  obtain ⟨_, hlen⟩ := (mem_combinations cands s cols).mp hcols
  simp only [discoveryStep, hlen]

lemma discover_fst_eq (ext : ExtOps) (cfg : HGConfig)
    (perms : List String → List (List ℚ)) (hg : Hypergraph)
    (df : String → List ℚ) (target_var_t : String)
    (cands : List String) (system_vars_t : List String) :
    (discover_hypergraph ext cfg perms hg df target_var_t cands system_vars_t).1 =
      ⟨hg.nodes, hg.edges ++
        (discover_hypergraph ext cfg perms hg df target_var_t cands system_vars_t).2⟩ :=
  rfl

/-- C2.  One discovery call tests exactly the combinations of candidate
driver columns of each size from 2 up to `max_hyperedge_size` inclusive:
the batch it produces is a filter-map over that enumeration, the
enumeration has Σ_(s=2..K) C(m, s) elements for a candidate pool of size
m, it consists exactly of the subsequences of the candidate pool with
length between 2 and K, each such combination occurs exactly once (for
distinct candidate columns), and no size-1 combination is ever tested. -/
theorem C2_exhaustive_enumeration (ext : ExtOps) (cfg : HGConfig)
    (perms : List String → List (List ℚ)) (hg : Hypergraph)
    (df : String → List ℚ) (target_var_t : String)
    (cands : List String) (system_vars_t : List String)
    (hnd : cands.Nodup) :
    (discover_hypergraph ext cfg perms hg df target_var_t cands system_vars_t).2 =
      (testedCombos cfg.max_hyperedge_size cands).filterMap
        (discoveryStep ext cfg perms df target_var_t system_vars_t) ∧
    (testedCombos cfg.max_hyperedge_size cands).length =
      ∑ s ∈ Finset.Icc 2 cfg.max_hyperedge_size, cands.length.choose s ∧
    (∀ c, c ∈ testedCombos cfg.max_hyperedge_size cands ↔
      List.Sublist c cands ∧ 2 ≤ c.length ∧
        c.length ≤ cfg.max_hyperedge_size) ∧
    (testedCombos cfg.max_hyperedge_size cands).Nodup ∧
    (∀ c ∈ testedCombos cfg.max_hyperedge_size cands, c.length ≠ 1) := by
  refine ⟨discover_snd_eq ext cfg perms hg df target_var_t cands system_vars_t,
    length_testedCombos cfg.max_hyperedge_size cands,
    fun c => mem_testedCombos, nodup_testedCombos hnd, ?_⟩
  intro c hc
  have h2 := (mem_testedCombos.mp hc).2.1
  omega

theorem C2_exhaustive_enumeration_witness :
    (testedCombos cfgSample.max_hyperedge_size ["a", "b", "c"]).length =
      ∑ s ∈ Finset.Icc 2 cfgSample.max_hyperedge_size,
        (["a", "b", "c"] : List String).length.choose s :=
  (C2_exhaustive_enumeration extSample cfgSample (fun _ => [[0]]) ⟨∅, []⟩
    (fun _ => [0]) "t" ["a", "b", "c"] ["t"] (by decide)).2.1

/-- C3.  In every discovery call the conditioning data is built once from
the system variable names minus the target and used unchanged for every
test; the call appends to the hypergraph edge list exactly the batch of
records it returns; and a record is in that batch exactly when some tested
combination is declared not independent, in which case the record carries
that combination as sources, the call target, the observed statistic, the
p-value, and the combination size as order. -/
theorem C3_records_appended (ext : ExtOps) (cfg : HGConfig)
    (perms : List String → List (List ℚ)) (hg : Hypergraph)
    (df : String → List ℚ) (target_var_t : String)
    (cands : List String) (system_vars_t : List String) :
    (discover_hypergraph ext cfg perms hg df target_var_t cands system_vars_t).1.edges =
      hg.edges ++
        (discover_hypergraph ext cfg perms hg df target_var_t cands system_vars_t).2 ∧
    (discover_hypergraph ext cfg perms hg df target_var_t cands system_vars_t).2 =
      (testedCombos cfg.max_hyperedge_size cands).filterMap
        (discoveryStep ext cfg perms df target_var_t system_vars_t) ∧
    (∀ r, r ∈ (discover_hypergraph ext cfg perms hg df target_var_t cands
        system_vars_t).2 ↔
      ∃ cols, cols ∈ testedCombos cfg.max_hyperedge_size cands ∧
        (test_independence ext cfg (perms cols) (cols.map df) (df target_var_t)
          (some ((system_vars_t.filter fun v => decide (v ≠ target_var_t)).map df))).1
            = false ∧
        r = ⟨cols, target_var_t,
          (test_independence ext cfg (perms cols) (cols.map df) (df target_var_t)
            (some ((system_vars_t.filter fun v =>
              decide (v ≠ target_var_t)).map df))).2.2,
          (test_independence ext cfg (perms cols) (cols.map df) (df target_var_t)
            (some ((system_vars_t.filter fun v =>
              decide (v ≠ target_var_t)).map df))).2.1,
          cols.length⟩) := by
  refine ⟨rfl, discover_snd_eq ext cfg perms hg df target_var_t cands system_vars_t, ?_⟩
  intro r
  rw [discover_snd_eq, List.mem_filterMap]
  constructor
  · rintro ⟨cols, hmem, hstep⟩
    simp only [discoveryStep] at hstep
    split at hstep
    · cases hstep
    · rename_i hb
      refine ⟨cols, hmem, ?_, (Option.some.inj hstep).symm⟩
      exact Bool.eq_false_iff.mpr hb
  · rintro ⟨cols, hmem, hfalse, rfl⟩
    refine ⟨cols, hmem, ?_⟩
    simp only [discoveryStep, hfalse]
    rfl

/-- C7.  Calling `discover_hypergraph` with an empty candidate driver
list does not fail: both nested loops run zero iterations, the call
returns an empty batch and leaves the hypergraph exactly as it was.  The
code therefore silently degrades this caller contract violation into a
successful no-op discovery, where the specification demands an immediate
loud precondition failure. -/
theorem C7_empty_candidates_silently_succeed (ext : ExtOps) (cfg : HGConfig)
    (perms : List String → List (List ℚ)) (hg : Hypergraph)
    (df : String → List ℚ) (target_var_t : String)
    (system_vars_t : List String) :
    (discover_hypergraph ext cfg perms hg df target_var_t [] system_vars_t).2 = [] ∧
    (discover_hypergraph ext cfg perms hg df target_var_t [] system_vars_t).1 = hg := by
  have hempty : testedCombos cfg.max_hyperedge_size ([] : List String) = [] := by
    refine List.eq_nil_iff_forall_not_mem.mpr ?_
    intro c hc
    obtain ⟨hs, h2, _⟩ := mem_testedCombos.mp hc
    rw [List.sublist_nil.mp hs] at h2
    simp at h2
  have h2 : (discover_hypergraph ext cfg perms hg df target_var_t []
      system_vars_t).2 = [] := by
    rw [discover_snd_eq, hempty]
    rfl
  refine ⟨h2, ?_⟩
  rw [discover_fst_eq, h2, List.append_nil]

/-- External operations for the C8 counterexample: a deterministic
estimator that scores the original target high and its permutation low,
so that one tested combination rejects independence. -/
def extC8 : ExtOps :=
  ⟨fun _ _ y => [if y = [1, 0] then 1 else 0], fun _ X => X, fun _ y => y,
    fun _ => 0, fun _ _ _ _ => (0, 0)⟩

/-- C8 counterexample.  A discovery call that produces a non-empty batch
of records (for target `t` with sources `a`, `b`) whose resulting
hypergraph node set contains neither the target nor a source: the claim
that the node set contains the involved variable names fails, because the
code initializes the node set empty and never updates it. -/
theorem C8_counterexample :
    (discover_hypergraph extC8 cfgSample (fun _ => [[0, 1]]) ⟨∅, []⟩
        (fun s => if s = "t" then [1, 0] else [0, 1]) "t" ["a", "b"] ["t"]).2 ≠ [] ∧
    "t" ∉ (discover_hypergraph extC8 cfgSample (fun _ => [[0, 1]]) ⟨∅, []⟩
        (fun s => if s = "t" then [1, 0] else [0, 1]) "t" ["a", "b"] ["t"]).1.nodes ∧
    "a" ∉ (discover_hypergraph extC8 cfgSample (fun _ => [[0, 1]]) ⟨∅, []⟩
        (fun s => if s = "t" then [1, 0] else [0, 1]) "t" ["a", "b"] ["t"]).1.nodes := by
  have hbatch : (discover_hypergraph extC8 cfgSample (fun _ => [[0, 1]]) ⟨∅, []⟩
      (fun s => if s = "t" then [1, 0] else [0, 1]) "t" ["a", "b"] ["t"]).2 =
      [⟨["a", "b"], "t", 1, 0, 2⟩] := by
    norm_num [discover_hypergraph, test_independence, conditional_mutual_information,
      npMeanOrZero, extC8, cfgSample, combinations, List.range',
      List.filterMap_cons, List.filterMap_nil]
  have hnodes : (discover_hypergraph extC8 cfgSample (fun _ => [[0, 1]]) ⟨∅, []⟩
      (fun s => if s = "t" then [1, 0] else [0, 1]) "t" ["a", "b"] ["t"]).1.nodes =
      (∅ : Finset String) := rfl
  refine ⟨?_, ?_, ?_⟩
  · rw [hbatch]; simp
  · rw [hnodes]; simp
  · rw [hnodes]; simp

/-- C8 amended.  `discover_hypergraph` accumulates the significant driver
subsets into the hypergraph edge list, each record carrying its test
statistics, the call target and an order of at least 2; the node set is
left exactly as it was (the code never updates it), so it does not come
to contain the involved variable names. -/
theorem C8_amended_accumulation (ext : ExtOps) (cfg : HGConfig)
    (perms : List String → List (List ℚ)) (hg : Hypergraph)
    (df : String → List ℚ) (target_var_t : String)
    (cands : List String) (system_vars_t : List String) :
    (discover_hypergraph ext cfg perms hg df target_var_t cands
      system_vars_t).1.nodes = hg.nodes ∧
    (discover_hypergraph ext cfg perms hg df target_var_t cands
      system_vars_t).1.edges =
      hg.edges ++
        (discover_hypergraph ext cfg perms hg df target_var_t cands system_vars_t).2 ∧
    ∀ r ∈ (discover_hypergraph ext cfg perms hg df target_var_t cands
      system_vars_t).2, r.target = target_var_t ∧ 2 ≤ r.order := by
  refine ⟨rfl, rfl, ?_⟩
  intro r hr
  rw [discover_snd_eq, List.mem_filterMap] at hr
  obtain ⟨cols, hmem, hstep⟩ := hr
  have hlen := (mem_testedCombos.mp hmem).2.1
  simp only [discoveryStep] at hstep
  split at hstep
  · cases hstep
  · cases Option.some.inj hstep
    exact ⟨rfl, hlen⟩

lemma foldMin_spec {α : Type} (f : α → ℚ) (a : α) (l : List α) :
    ∃ pre post, a :: l = pre ++ foldMin f a l :: post ∧
      (∀ x ∈ a :: l, f (foldMin f a l) ≤ f x) ∧
      (∀ x ∈ pre, f (foldMin f a l) < f x) := by
  induction l generalizing a with
  | nil =>
    refine ⟨[], [], rfl, ?_, by simp⟩
    intro x hx
    rw [List.mem_singleton] at hx
    subst hx
    exact le_refl _
  | cons x t ih =>
    have hstep : foldMin f a (x :: t) = foldMin f (if f x < f a then x else a) t := rfl
    by_cases hx : f x < f a
    · rw [hstep, if_pos hx]
      obtain ⟨pre, post, hsplit, hmin, hpre⟩ := ih x
      refine ⟨a :: pre, post, ?_, ?_, ?_⟩
      · rw [List.cons_append, ← hsplit]
      · intro y hy
        rcases List.mem_cons.mp hy with rfl | hy2
        · exact le_of_lt (lt_of_le_of_lt (hmin x (List.mem_cons_self x t)) hx)
        · exact hmin y hy2
      · intro y hy
        rcases List.mem_cons.mp hy with rfl | hy2
        · exact lt_of_le_of_lt (hmin x (List.mem_cons_self x t)) hx
        · exact hpre y hy2
    · rw [hstep, if_neg hx]
      have hax : f a ≤ f x := le_of_not_lt hx
      obtain ⟨pre, post, hsplit, hmin, hpre⟩ := ih a
      cases pre with
      | nil =>
        rw [List.nil_append] at hsplit
        injection hsplit with h1 h2
        refine ⟨[], x :: t, ?_, ?_, by simp⟩
        · rw [List.nil_append, ← h1]
        · intro y hy
          rcases List.mem_cons.mp hy with rfl | hy2
          · rw [← h1]
          · rcases List.mem_cons.mp hy2 with rfl | hy3
            · rw [← h1]; exact hax
            · exact hmin y (List.mem_cons_of_mem a hy3)
      | cons p ps =>
        rw [List.cons_append] at hsplit
        injection hsplit with h1 h2
        have hra : f (foldMin f a t) < f a := by
          have hp := hpre p (List.mem_cons_self p ps)
          rw [← h1] at hp
          exact hp
        refine ⟨a :: x :: ps, post, ?_, ?_, ?_⟩
        · rw [List.cons_append, List.cons_append]
          exact congrArg (List.cons a) (congrArg (List.cons x) h2)
        · intro y hy
          rcases List.mem_cons.mp hy with rfl | hy2
          · exact le_of_lt hra
          · rcases List.mem_cons.mp hy2 with rfl | hy3
            · exact le_of_lt (lt_of_lt_of_le hra hax)
            · exact hmin y (List.mem_cons_of_mem a hy3)
        · intro y hy
          rcases List.mem_cons.mp hy with rfl | hy2
          · exact hra
          · rcases List.mem_cons.mp hy2 with rfl | hy3
            · exact lt_of_lt_of_le hra hax
            · exact hpre y (List.mem_cons_of_mem p hy3)

lemma foldMax_eq_foldMin_neg {α : Type} (f : α → ℚ) (a : α) (l : List α) :
    foldMax f a l = foldMin (fun x => -(f x)) a l := by
  unfold foldMax foldMin
  congr 1
  funext b y
  rcases lt_or_le (f b) (f y) with h | h
  · rw [if_pos h, if_pos (neg_lt_neg h)]
  · rw [if_neg (not_lt.mpr h), if_neg (not_lt.mpr (neg_le_neg h))]

lemma foldMax_spec {α : Type} (f : α → ℚ) (a : α) (l : List α) :
    ∃ pre post, a :: l = pre ++ foldMax f a l :: post ∧
      (∀ x ∈ a :: l, f x ≤ f (foldMax f a l)) ∧
      (∀ x ∈ pre, f x < f (foldMax f a l)) := by
  rw [foldMax_eq_foldMin_neg]
  obtain ⟨pre, post, h1, h2, h3⟩ := foldMin_spec (fun x => -(f x)) a l
  refine ⟨pre, post, h1, ?_, ?_⟩
  · intro y hy
    exact neg_le_neg_iff.mp (h2 y hy)
  · intro y hy
    exact neg_lt_neg_iff.mp (h3 y hy)

/-- C4.  When the target has a non-empty baseline entry list, the
comparison takes its main path; the pairwise candidate is the first
baseline entry attaining the minimal p-value, and its p-value is the one
returned in the report; a record is relevant exactly when it is stored
and its target matches; the hypergraph candidate is the first relevant
record attaining the maximal observed mutual-information statistic; and
when no relevant record exists, the hypergraph driver set falls back to
the selected pairwise driver set. -/
theorem C4_asymmetric_selection (ext : ExtOps) (cfg : HGConfig)
    (st : DiscoveryState) (df : String → List ℚ) (target_var_t : String)
    (e0 : PairLink) (rest : List PairLink)
    (hlook : st.pairwise_baseline.lookup target_var_t = some (e0 :: rest)) :
    (compare_pairwise_vs_hypergraph ext cfg st df target_var_t =
      compareMain ext cfg st df target_var_t e0 rest) ∧
    ((compare_pairwise_vs_hypergraph ext cfg st df target_var_t).best_pairwise_p =
      (foldMin PairLink.cmi_p e0 rest).cmi_p) ∧
    (∃ pre post, e0 :: rest = pre ++ foldMin PairLink.cmi_p e0 rest :: post ∧
      (∀ e ∈ e0 :: rest, (foldMin PairLink.cmi_p e0 rest).cmi_p ≤ e.cmi_p) ∧
      (∀ e ∈ pre, (foldMin PairLink.cmi_p e0 rest).cmi_p < e.cmi_p)) ∧
    (∀ e, e ∈ relevantHyperedges st.hypergraph.edges target_var_t ↔
      e ∈ st.hypergraph.edges ∧ e.target = target_var_t) ∧
    (∀ E0 Es, relevantHyperedges st.hypergraph.edges target_var_t = E0 :: Es →
      bestHyperedgeDrivers st.hypergraph.edges target_var_t
          [(foldMin PairLink.cmi_p e0 rest).source] =
        (foldMax Hyperedge.cmi E0 Es).sources ∧
      ∃ pre post, E0 :: Es = pre ++ foldMax Hyperedge.cmi E0 Es :: post ∧
        (∀ e ∈ E0 :: Es, e.cmi ≤ (foldMax Hyperedge.cmi E0 Es).cmi) ∧
        (∀ e ∈ pre, e.cmi < (foldMax Hyperedge.cmi E0 Es).cmi)) ∧
    (relevantHyperedges st.hypergraph.edges target_var_t = [] →
      bestHyperedgeDrivers st.hypergraph.edges target_var_t
          [(foldMin PairLink.cmi_p e0 rest).source] =
        [(foldMin PairLink.cmi_p e0 rest).source]) := by
  refine ⟨by simp [compare_pairwise_vs_hypergraph, hlook], ?_, ?_, ?_, ?_, ?_⟩
  · simp only [compare_pairwise_vs_hypergraph, hlook]
    rfl
  · exact foldMin_spec PairLink.cmi_p e0 rest
  · intro e
    rw [relevantHyperedges, List.mem_filter, decide_eq_true_iff]
  · intro E0 Es h
    refine ⟨?_, foldMax_spec Hyperedge.cmi E0 Es⟩
    rw [bestHyperedgeDrivers, h]
    rfl
  · intro h
    rw [bestHyperedgeDrivers, h]
    rfl

theorem C4_asymmetric_selection_witness :
    (compare_pairwise_vs_hypergraph extSample cfgSample
      ⟨⟨∅, []⟩, [("t", [⟨"a", 1/2⟩, ⟨"b", 1/4⟩])]⟩ (fun _ => [1, 2]) "t").best_pairwise_p =
      (foldMin PairLink.cmi_p ⟨"a", 1/2⟩ [⟨"b", 1/4⟩]).cmi_p :=
  (C4_asymmetric_selection extSample cfgSample
    ⟨⟨∅, []⟩, [("t", [⟨"a", 1/2⟩, ⟨"b", 1/4⟩])]⟩ (fun _ => [1, 2]) "t"
    ⟨"a", 1/2⟩ [⟨"b", 1/4⟩] (by simp [List.lookup])).2.1

lemma npVariance_of_const {y : List ℚ} {c : ℚ} (hne : y ≠ [])
    (h : ∀ v ∈ y, v = c) : npVariance y = 0 := by
  have hlen : (y.length : ℚ) ≠ 0 := by
    have hpos := List.length_pos.mpr hne
    exact_mod_cast Nat.pos_iff_ne_zero.mp hpos
  have hmean : npMeanQ y = c := by
    unfold npMeanQ
    rw [List.sum_eq_card_nsmul y c h, nsmul_eq_mul]
    field_simp
  have hmap : y.map (fun v => (v - npMeanQ y) ^ 2) = y.map fun _ => (0 : ℚ) := by
    refine List.map_congr_left ?_
    intro v hv
    rw [hmean, h v hv, sub_self]
    ring
  unfold npVariance
  rw [hmap]
  unfold npMeanQ
  rw [List.sum_eq_zero fun x hx => by
    obtain ⟨_, _, rfl⟩ := List.mem_map.mp hx; rfl]
  exact zero_div _

/-- C10.  The comparison standardizes the target by dividing by the
standard deviation `np.std Y` with no zero guard (line 144); `np.std Y`
is the square root of `npVariance Y`, so for a constant target column the
denominator is exactly zero, and a constant target with a non-empty
baseline entry does reach that unguarded division (the call does not
short-circuit but takes the main path). -/
theorem C10_constant_target_zero_std (ext : ExtOps) (cfg : HGConfig)
    (st : DiscoveryState) (df : String → List ℚ) (target_var_t : String)
    (e0 : PairLink) (rest : List PairLink) (c : ℚ)
    (hlook : st.pairwise_baseline.lookup target_var_t = some (e0 :: rest))
    (hne : df target_var_t ≠ [])
    (hconst : ∀ v ∈ df target_var_t, v = c)
    (hstd : ext.np_std (df target_var_t) * ext.np_std (df target_var_t) =
      npVariance (df target_var_t)) :
    npVariance (df target_var_t) = 0 ∧
    ext.np_std (df target_var_t) = 0 ∧
    compare_pairwise_vs_hypergraph ext cfg st df target_var_t =
      compareMain ext cfg st df target_var_t e0 rest := by
  have hv : npVariance (df target_var_t) = 0 := npVariance_of_const hne hconst
  exact ⟨hv, mul_self_eq_zero.mp (hstd.trans hv),
    by simp [compare_pairwise_vs_hypergraph, hlook]⟩

theorem C10_constant_target_zero_std_witness :
    npVariance ((fun _ : String => [(3 : ℚ), 3]) "t") = 0 ∧
    extSample.np_std ((fun _ : String => [(3 : ℚ), 3]) "t") = 0 :=
  have h := C10_constant_target_zero_std extSample cfgSample
    ⟨⟨∅, []⟩, [("t", [⟨"a", 1⟩])]⟩ (fun _ => [3, 3]) "t" ⟨"a", 1⟩ [] 3
    (by simp [List.lookup]) (by simp) (by norm_num)
    (by norm_num [extSample, npVariance, npMeanQ])
  ⟨h.1, h.2.1⟩

end CausalEarthNet
